import Mathlib

/-!
Verification of the plagiarism-checker core (`main.py`).

Texts are modelled as `List Char`; Python's arbitrary-precision ints as `Nat`;
Python floats as exact rationals/reals (IEEE rounding is out of scope).
Pure functions of the source are translated one-to-one; file I/O and printing
are external collaborators and are not modelled (the pipeline takes the raw
file contents directly).
-/

namespace PlagiarismChecker

/-- Whitespace characters, modelling Python's regex class `\s` (and `str.strip`)
on the character ranges occurring in this development: the ASCII whitespace
characters together with the Unicode space separators. -/
def spaceChars : List Char :=
  [' ', '\t', '\n', '\r', '\x0b', '\x0c',
   '\x1c', '\x1d', '\x1e', '\x1f', '\x85', '\xa0',
   '\u1680', '\u2000', '\u2001', '\u2002', '\u2003', '\u2004', '\u2005',
   '\u2006', '\u2007', '\u2008', '\u2009', '\u200a',
   '\u2028', '\u2029', '\u202f', '\u205f', '\u3000']

def isSpaceChar (c : Char) : Bool :=
  spaceChars.contains c

/-- Word characters, modelling Python's regex class `\w` on the ranges occurring
in this development: ASCII alphanumerics, the underscore, and the CJK Unified
Ideographs block (which contains every Chinese character used by the program,
in particular the whole stopword set). -/
def isWordChar (c : Char) : Bool :=
  c.isAlphanum || c = '_' || (0x4E00 ≤ c.toNat && c.toNat ≤ 0x9FFF)

/-- The fixed stopword set of `preprocess_text`. -/
def stopwordChars : List Char :=
  ['的', '了', '是', '很', '我', '有', '和', '也', '吧', '啊', '你', '他', '她']

def isStopword (c : Char) : Bool :=
  stopwordChars.contains c

/-- `re.sub(r'[^\w\s]', '', text)`: drop every character that is neither a word
character nor whitespace. -/
def stripPunct (text : List Char) : List Char :=
  text.filter (fun c => isWordChar c || isSpaceChar c)

/-- Prepend one ASCII space to an already-collapsed tail, without creating a
double space (helper of `collapseWs`). -/
def joinSpace : List Char → List Char
  | [] => [' ']
  | d :: ds => if d = ' ' then d :: ds else ' ' :: d :: ds

/-- `re.sub(r'\s+', ' ', text)`: replace every maximal run of whitespace
characters by a single ASCII space. -/
def collapseWs : List Char → List Char
  | [] => []
  | c :: rest =>
    if isSpaceChar c then joinSpace (collapseWs rest)
    else c :: collapseWs rest

/-- `str.strip()`: remove leading and trailing whitespace. -/
def pyStrip (l : List Char) : List Char :=
  ((l.dropWhile isSpaceChar).reverse.dropWhile isSpaceChar).reverse

/-- Steps 1–2 of `preprocess_text`: collapse whitespace runs and trim. -/
def squeezeWs (l : List Char) : List Char :=
  pyStrip (collapseWs l)

/-- `preprocess_text(text)` from `main.py`: strip punctuation, collapse and trim
whitespace, and, when the resulting length exceeds 800 characters, delete every
occurrence of a stopword character. -/
def preprocess_text (text : List Char) : List Char :=
  let t := squeezeWs (stripPunct text)
  if t.length > 800 then t.filter (fun c => !(isStopword c)) else t

/-- `segment_text(text)` from `main.py`: run the external segmenter
(`jieba.lcut(text, cut_all=True)`, passed in as `lcut`) and keep only the words
whose `strip()` is non-empty. -/
def segment_text (lcut : List Char → List (List Char)) (text : List Char) :
    List (List Char) :=
  (lcut text).filter (fun w => !(pyStrip w).isEmpty)

/-- Modelled from the spec: `jieba.lcut(text, cut_all=True)` is an external
library, not part of this repository.  Per §4.2 the exhaustive segmentation
mode surfaces every dictionary-recognized substring at every starting position
(multi-character and single-character words alike, overlapping and duplicated).
We model it parametrically in the lexicon `dict` as the list of all non-empty
contiguous substrings of `text` that are dictionary words. -/
def lcutAll (dict : List (List Char)) (text : List Char) : List (List Char) :=
  (text.tails.flatMap fun suf =>
    (List.range suf.length).map fun k => suf.take (k + 1)).filter
    (fun w => dict.contains w)

/-- The list of distinct elements of `l` in first-occurrence order: the key
order of `collections.Counter(words)` (Python dicts preserve insertion
order). -/
def dedupFirst : List (List Char) → List (List Char)
  | [] => []
  | x :: xs => x :: dedupFirst (xs.filter (fun y => y ≠ x))
termination_by l => l.length
decreasing_by
  simp only [List.length_cons]
  exact Nat.lt_succ_of_le (List.length_filter_le _ _)

/-- `calculate_term_frequency(words)` from `main.py`: `Counter(words)`, modelled
as its `items()` view — the association list of distinct words (in
first-occurrence order) with their multiplicities. -/
def calculate_term_frequency (words : List (List Char)) :
    List (List Char × Nat) :=
  (dedupFirst words).map fun w => (w, words.count w)

/-- Python's `list.index(w)`: the index of the first occurrence of `w`. -/
def listIndex (w : List Char) : List (List Char) → Nat
  | [] => 0
  | x :: xs => if x = w then 0 else 1 + listIndex w xs

/-- `text_to_vector(words, vocabulary)` from `main.py`: start from a zero
vector of the vocabulary's length and, for each `(word, count)` item of the
counter, when the word occurs in the vocabulary, write `count` at the word's
first index in the vocabulary. -/
def text_to_vector (words vocabulary : List (List Char)) : List Nat :=
  (calculate_term_frequency words).foldl
    (fun vec wc =>
      if wc.1 ∈ vocabulary then vec.set (listIndex wc.1 vocabulary) wc.2 else vec)
    (List.replicate vocabulary.length 0)

/-- The Levenshtein edit distance (unit-cost insert/delete/substitute) computed
by the external `Levenshtein.distance`. -/
def levenshtein : List Char → List Char → Nat
  | [], b => b.length
  | a, [] => a.length
  | x :: xs, y :: ys =>
    if x = y then levenshtein xs ys
    else 1 + min (levenshtein xs ys)
      (min (levenshtein (x :: xs) ys) (levenshtein xs (y :: ys)))
termination_by a b => a.length + b.length
decreasing_by all_goals simp_arith

/-- `calculate_edit_distance_similarity(text1, text2)` from `main.py`. -/
def calculate_edit_distance_similarity (text1 text2 : List Char) : ℚ :=
  let d := levenshtein text1 text2
  let m := max text1.length text2.length
  if m = 0 then 1 else 1 - (d : ℚ) / (m : ℚ)

/-- `calculate_cosine_similarity(vec1, vec2)` from `main.py`: dot product over
the zipped entries, Euclidean magnitudes, `0.0` when either magnitude is zero,
otherwise the normalized dot product. -/
noncomputable def calculate_cosine_similarity (vec1 vec2 : List ℝ) : ℝ :=
  let dot := (List.zipWith (fun x y => x * y) vec1 vec2).sum
  let mag1 := Real.sqrt ((vec1.map fun x => x ^ 2).sum)
  let mag2 := Real.sqrt ((vec2.map fun x => x ^ 2).sum)
  if mag1 = 0 ∨ mag2 = 0 then 0 else dot / (mag1 * mag2)

/-- The error message of the empty-input `ValueError` in `calculate_similarity`. -/
def emptyInputMsg : String :=
  "错误：存在空文件，无法进行查重！请检查输入文件。"

/-- `calculate_similarity` from `main.py`, on the raw file contents (file
reading is an external collaborator).  `lcut` is the external segmenter;
Python's `list(set(words1 + words2))` enumerates the distinct tokens in an
unspecified order, modelled here by `List.dedup` (cosine similarity is
invariant under the enumeration order, which we prove below). -/
noncomputable def calculate_similarity (lcut : List Char → List (List Char))
    (cosine_weight edit_distance_weight : ℝ) (raw_text1 raw_text2 : List Char) :
    Except String ℝ :=
  let processed_text1 := preprocess_text raw_text1
  let processed_text2 := preprocess_text raw_text2
  if processed_text1 = [] ∨ processed_text2 = [] then
    Except.error emptyInputMsg
  else
    let words1 := segment_text lcut processed_text1
    let words2 := segment_text lcut processed_text2
    let vocabulary := (words1 ++ words2).dedup
    let vector1 := (text_to_vector words1 vocabulary).map fun n : ℕ => (n : ℝ)
    let vector2 := (text_to_vector words2 vocabulary).map fun n : ℕ => (n : ℝ)
    let cos := calculate_cosine_similarity vector1 vector2
    let ed := ((calculate_edit_distance_similarity processed_text1
      processed_text2 : ℚ) : ℝ)
    Except.ok (cosine_weight * cos + edit_distance_weight * ed)

/-- Two adjacent characters are acceptable in normalized text when they are not
both whitespace (no whitespace run longer than one). -/
def okPair (a b : Char) : Prop :=
  ¬(isSpaceChar a = true ∧ isSpaceChar b = true)

/-- `noWsRun l = true` when `l` contains no run of two or more adjacent
whitespace characters. -/
def noWsRun : List Char → Bool
  | a :: b :: rest => (!(isSpaceChar a && isSpaceChar b)) && noWsRun (b :: rest)
  | _ => true

/-- `trimmedB l = true` when `l` has no leading and no trailing whitespace. -/
def trimmedB (l : List Char) : Bool :=
  (match l.head? with
   | none => true
   | some c => !isSpaceChar c) &&
  (match l.getLast? with
   | none => true
   | some c => !isSpaceChar c)


/-! ### Character-class facts -/

theorem space_mem_spaceChars (c : Char) (h : isSpaceChar c = true) :
    c ∈ spaceChars := by
  simpa [isSpaceChar, List.elem_iff] using h

theorem spaceChars_not_word : ∀ c ∈ spaceChars, isWordChar c = false := by
  decide

theorem isWordChar_not_space (c : Char) (h : isWordChar c = true) :
    isSpaceChar c = false := by
  cases hs : isSpaceChar c with
  | false => rfl
  | true => exact absurd h (by simp [spaceChars_not_word c (space_mem_spaceChars c hs)])

theorem isSpaceChar_space : isSpaceChar ' ' = true := by decide

theorem stopword_mem (c : Char) (h : isStopword c = true) : c ∈ stopwordChars := by
  simpa [isStopword, List.elem_iff] using h

theorem stopword_word : ∀ c ∈ stopwordChars, isWordChar c = true := by decide

theorem stopword_not_space : ∀ c ∈ stopwordChars, isSpaceChar c = false := by decide

/-! ### `noWsRun` and `trimmedB` basics -/

theorem noWsRun_iff_chain (l : List Char) :
    noWsRun l = true ↔ List.Chain' okPair l := by
  induction l with
  | nil => simp [noWsRun]
  | cons a t ih =>
    cases t with
    | nil => simp [noWsRun]
    | cons b t' =>
      rw [List.chain'_cons, ← ih]
      cases hsa : isSpaceChar a <;> cases hsb : isSpaceChar b <;>
        simp [noWsRun, okPair, hsa, hsb]

theorem noWsRun_tail (a : Char) (l : List Char) (h : noWsRun (a :: l) = true) :
    noWsRun l = true := by
  cases l with
  | nil => rfl
  | cons b t => exact (Bool.and_eq_true _ _ |>.mp h).2

theorem noWsRun_cons_of_not_space (a : Char) (l : List Char)
    (ha : isSpaceChar a = false) (hl : noWsRun l = true) :
    noWsRun (a :: l) = true := by
  cases l with
  | nil => rfl
  | cons b t => simp [noWsRun, ha, hl]

theorem noWsRun_of_no_space (l : List Char)
    (h : ∀ c ∈ l, isSpaceChar c = false) : noWsRun l = true := by
  induction l with
  | nil => rfl
  | cons a t ih =>
    exact noWsRun_cons_of_not_space a t (h a (by simp))
      (ih fun c hc => h c (by simp [hc]))

/-! ### `collapseWs` lemmas -/

theorem mem_joinSpace (l : List Char) (c : Char) (h : c ∈ joinSpace l) :
    c ∈ l ∨ c = ' ' := by
  cases l with
  | nil => simp [joinSpace] at h; exact Or.inr h
  | cons d ds =>
    rw [joinSpace] at h
    by_cases hd : d = ' '
    · rw [if_pos hd] at h; exact Or.inl h
    · rw [if_neg hd] at h
      rcases List.mem_cons.mp h with h' | h'
      · exact Or.inr h'
      · exact Or.inl h'

theorem mem_collapseWs (l : List Char) (c : Char) (h : c ∈ collapseWs l) :
    c ∈ l ∨ c = ' ' := by
  induction l with
  | nil => simp [collapseWs] at h
  | cons a t ih =>
    rw [collapseWs] at h
    by_cases ha : isSpaceChar a = true
    · rw [if_pos ha] at h
      rcases mem_joinSpace _ c h with h' | h'
      · rcases ih h' with h'' | h''
        · exact Or.inl (List.mem_cons_of_mem a h'')
        · exact Or.inr h''
      · exact Or.inr h'
    · rw [if_neg ha] at h
      rcases List.mem_cons.mp h with h' | h'
      · exact Or.inl (h' ▸ List.mem_cons_self a t)
      · rcases ih h' with h'' | h''
        · exact Or.inl (List.mem_cons_of_mem a h'')
        · exact Or.inr h''

theorem collapseWs_space_eq (l : List Char) (c : Char) (h : c ∈ collapseWs l)
    (hs : isSpaceChar c = true) : c = ' ' := by
  induction l with
  | nil => simp [collapseWs] at h
  | cons a t ih =>
    rw [collapseWs] at h
    by_cases ha : isSpaceChar a = true
    · rw [if_pos ha] at h
      rcases mem_joinSpace _ c h with h' | h'
      · exact ih h'
      · exact h'
    · rw [if_neg ha] at h
      rcases List.mem_cons.mp h with h' | h'
      · exact absurd (h' ▸ hs) (by simp [ha])
      · exact ih h'

theorem noWsRun_joinSpace (l : List Char)
    (hsp : ∀ c ∈ l, isSpaceChar c = true → c = ' ')
    (hl : noWsRun l = true) : noWsRun (joinSpace l) = true := by
  cases l with
  | nil => rfl
  | cons d ds =>
    rw [joinSpace]
    by_cases hd : d = ' '
    · rw [if_pos hd]; exact hl
    · rw [if_neg hd]
      have hdns : isSpaceChar d = false := by
        cases hds : isSpaceChar d with
        | false => rfl
        | true => exact absurd (hsp d (by simp) hds) hd
      simp [noWsRun, hdns, hl]

theorem noWsRun_collapseWs (l : List Char) : noWsRun (collapseWs l) = true := by
  induction l with
  | nil => rfl
  | cons a t ih =>
    rw [collapseWs]
    by_cases ha : isSpaceChar a = true
    · rw [if_pos ha]
      exact noWsRun_joinSpace _ (fun c hc hs => collapseWs_space_eq t c hc hs) ih
    · rw [if_neg ha]
      exact noWsRun_cons_of_not_space a (collapseWs t) (by simpa using ha) ih

theorem collapseWs_fixpoint (l : List Char)
    (h1 : ∀ c ∈ l, isSpaceChar c = true → c = ' ')
    (h2 : noWsRun l = true) : collapseWs l = l := by
  induction l with
  | nil => rfl
  | cons a t ih =>
    have iht : collapseWs t = t :=
      ih (fun c hc => h1 c (by simp [hc])) (noWsRun_tail a t h2)
    rw [collapseWs]
    by_cases ha : isSpaceChar a = true
    · rw [if_pos ha, iht]
      have haeq : a = ' ' := h1 a (by simp) ha
      cases t with
      | nil => simp [joinSpace, haeq]
      | cons b t' =>
        have hb : isSpaceChar b = false := by
          have := (Bool.and_eq_true _ _ |>.mp h2).1
          cases hbs : isSpaceChar b with
          | false => rfl
          | true => simp [ha, hbs] at this
        have hbne : b ≠ ' ' := fun hbe => by
          rw [hbe] at hb
          simp [isSpaceChar_space] at hb
        rw [joinSpace, if_neg hbne, haeq]
    · rw [if_neg ha, iht]


/-! ### `pyStrip` lemmas -/

theorem head_dropWhile_not (p : Char → Bool) (l : List Char) (c : Char)
    (h : (l.dropWhile p).head? = some c) : p c = false := by
  induction l with
  | nil => simp [List.dropWhile] at h
  | cons a t ih =>
    rw [List.dropWhile] at h
    cases hpa : p a with
    | true => rw [hpa] at h; exact ih h
    | false => rw [hpa] at h; simp at h; rw [← h]; exact hpa

theorem dropWhile_eq_self_of_head (p : Char → Bool) (l : List Char)
    (h : ∀ c, l.head? = some c → p c = false) : l.dropWhile p = l := by
  cases l with
  | nil => rfl
  | cons a t => rw [List.dropWhile, h a rfl]

theorem mem_dropWhile_imp (p : Char → Bool) (l : List Char) (c : Char)
    (h : c ∈ l.dropWhile p) : c ∈ l := by
  induction l with
  | nil => simp [List.dropWhile] at h
  | cons a t ih =>
    rw [List.dropWhile] at h
    cases hpa : p a with
    | true => rw [hpa] at h; exact List.mem_cons_of_mem a (ih h)
    | false => rw [hpa] at h; exact h

theorem mem_pyStrip (l : List Char) (c : Char) (h : c ∈ pyStrip l) : c ∈ l := by
  unfold pyStrip at h
  rw [List.mem_reverse] at h
  have h1 := mem_dropWhile_imp _ _ _ h
  rw [List.mem_reverse] at h1
  exact mem_dropWhile_imp _ _ _ h1

theorem getLast?_dropWhile_of_ne_nil (p : Char → Bool) (l : List Char)
    (h : l.dropWhile p ≠ []) : (l.dropWhile p).getLast? = l.getLast? := by
  induction l with
  | nil => simp [List.dropWhile]
  | cons a t ih =>
    rw [List.dropWhile]
    cases hpa : p a with
    | false => rfl
    | true =>
      rw [List.dropWhile, hpa] at h
      have ht : t ≠ [] := by
        intro he
        rw [he] at h
        simp [List.dropWhile] at h
      cases t with
      | nil => exact absurd rfl ht
      | cons b t' => rw [List.getLast?_cons_cons]; exact ih h

theorem trimmedB_nil : trimmedB [] = true := by decide

theorem trimmedB_eq_true (l : List Char)
    (hh : ∀ c, l.head? = some c → isSpaceChar c = false)
    (hg : ∀ c, l.getLast? = some c → isSpaceChar c = false) :
    trimmedB l = true := by
  unfold trimmedB
  cases hh' : l.head? with
  | none => cases hg' : l.getLast? with
    | none => rfl
    | some c => simp [hg c hg']
  | some c => cases hg' : l.getLast? with
    | none => simp [hh c hh']
    | some d => simp [hh c hh', hg d hg']

theorem trimmedB_pyStrip (l : List Char) : trimmedB (pyStrip l) = true := by
  by_cases hB : (l.dropWhile isSpaceChar).reverse.dropWhile isSpaceChar = []
  · unfold pyStrip
    rw [hB]
    exact trimmedB_nil
  · apply trimmedB_eq_true
    · intro c hc
      unfold pyStrip at hc
      rw [List.head?_reverse] at hc
      rw [getLast?_dropWhile_of_ne_nil _ _ hB, List.getLast?_reverse] at hc
      exact head_dropWhile_not _ _ _ hc
    · intro c hc
      unfold pyStrip at hc
      rw [List.getLast?_reverse] at hc
      exact head_dropWhile_not _ _ _ hc

theorem okPair_flip (a b : Char) (h : okPair a b) : okPair b a := by
  unfold okPair at h ⊢
  tauto

theorem noWsRun_reverse (l : List Char) :
    noWsRun l.reverse = true ↔ noWsRun l = true := by
  rw [noWsRun_iff_chain, noWsRun_iff_chain, List.chain'_reverse]
  constructor
  · intro h; exact h.imp fun a b hab => okPair_flip b a hab
  · intro h; exact h.imp fun a b hab => okPair_flip a b hab

theorem noWsRun_dropWhile (p : Char → Bool) (l : List Char)
    (h : noWsRun l = true) : noWsRun (l.dropWhile p) = true := by
  induction l with
  | nil => exact h
  | cons a t ih =>
    rw [List.dropWhile]
    cases hpa : p a with
    | true => exact ih (noWsRun_tail a t h)
    | false => exact h

theorem noWsRun_pyStrip (l : List Char) (h : noWsRun l = true) :
    noWsRun (pyStrip l) = true := by
  unfold pyStrip
  rw [noWsRun_reverse]
  exact noWsRun_dropWhile _ _ ((noWsRun_reverse _).mpr (noWsRun_dropWhile _ _ h))

theorem pyStrip_eq_self (l : List Char) (ht : trimmedB l = true) :
    pyStrip l = l := by
  unfold pyStrip
  have hh : ∀ c, l.head? = some c → isSpaceChar c = false := by
    intro c hc
    unfold trimmedB at ht
    rw [hc] at ht
    cases hs : isSpaceChar c with
    | false => rfl
    | true => simp [hs] at ht
  have hg : ∀ c, l.getLast? = some c → isSpaceChar c = false := by
    intro c hc
    unfold trimmedB at ht
    rw [hc] at ht
    cases hs : isSpaceChar c with
    | false => rfl
    | true => simp [hs] at ht
  rw [dropWhile_eq_self_of_head _ _ hh]
  rw [dropWhile_eq_self_of_head _ _ (by
    intro c hc
    rw [List.head?_reverse] at hc
    exact hg c hc)]
  exact List.reverse_reverse l


/-! ### The normalizer pipeline -/

theorem preprocess_eq (text : List Char) :
    preprocess_text text =
      if (squeezeWs (stripPunct text)).length > 800 then
        (squeezeWs (stripPunct text)).filter (fun c => !(isStopword c))
      else squeezeWs (stripPunct text) := rfl

theorem mem_stripPunct (text : List Char) (c : Char) (h : c ∈ stripPunct text) :
    isWordChar c = true ∨ isSpaceChar c = true := by
  have := (List.mem_filter.mp h).2
  exact Bool.or_eq_true _ _ |>.mp this

theorem mem_squeezeWs (l : List Char) (c : Char) (h : c ∈ squeezeWs l) :
    c ∈ l ∨ c = ' ' := by
  unfold squeezeWs at h
  exact mem_collapseWs l c (mem_pyStrip _ c h)

theorem mem_preprocess (text : List Char) (c : Char)
    (h : c ∈ preprocess_text text) : c ∈ squeezeWs (stripPunct text) := by
  rw [preprocess_eq] at h
  split at h
  · exact List.mem_of_mem_filter h
  · exact h

theorem noWsRun_squeezeWs (l : List Char) : noWsRun (squeezeWs l) = true := by
  unfold squeezeWs
  exact noWsRun_pyStrip _ (noWsRun_collapseWs l)

theorem trimmedB_squeezeWs (l : List Char) : trimmedB (squeezeWs l) = true :=
  trimmedB_pyStrip _

theorem trimmedB_of_no_space (l : List Char)
    (h : ∀ c ∈ l, isSpaceChar c = false) : trimmedB l = true := by
  apply trimmedB_eq_true
  · intro c hc
    exact h c (by
      cases l with
      | nil => simp at hc
      | cons a t => simp at hc; simp [hc])
  · intro c hc
    exact h c (List.mem_of_mem_getLast? hc)

/-- C1 (amended): every character of the normalizer's output is a word
character or whitespace (no punctuation survives, for every input); and
whenever the stopword-removal step is not triggered — i.e. the length after
punctuation removal, whitespace collapsing and trimming is at most 800 — the
output also contains no whitespace run longer than one space and no leading or
trailing whitespace. -/
theorem c1_normalizer_invariants (text : List Char) :
    (∀ c ∈ preprocess_text text, isWordChar c = true ∨ isSpaceChar c = true) ∧
    ((squeezeWs (stripPunct text)).length ≤ 800 →
      noWsRun (preprocess_text text) = true ∧
      trimmedB (preprocess_text text) = true) := by
  constructor
  · intro c hc
    rcases mem_squeezeWs _ _ (mem_preprocess _ _ hc) with h | h
    · exact mem_stripPunct text c h
    · exact Or.inr (h ▸ isSpaceChar_space)
  · intro hlen
    have hpe : preprocess_text text = squeezeWs (stripPunct text) := by
      rw [preprocess_eq, if_neg (by omega)]
    rw [hpe]
    exact ⟨noWsRun_squeezeWs _, trimmedB_squeezeWs _⟩

/-- C1 witness: a concrete input (`"a, b"`) on which the amended theorem's
hypothesis holds and all three invariants are established. -/
theorem c1_witness :
    (squeezeWs (stripPunct ['a', ',', ' ', 'b'])).length ≤ 800 ∧
    (∀ c ∈ preprocess_text ['a', ',', ' ', 'b'],
      isWordChar c = true ∨ isSpaceChar c = true) ∧
    noWsRun (preprocess_text ['a', ',', ' ', 'b']) = true ∧
    trimmedB (preprocess_text ['a', ',', ' ', 'b']) = true := by
  have h := c1_normalizer_invariants ['a', ',', ' ', 'b']
  have hl : (squeezeWs (stripPunct ['a', ',', ' ', 'b'])).length ≤ 800 := by
    decide
  exact ⟨hl, h.1, (h.2 hl).1, (h.2 hl).2⟩

set_option maxRecDepth 100000 in
/-- C1 counterexample: the claim as stated (the whitespace invariants hold for
every input) is false.  On the input `"a 的 b" ++ "c" * 800` the normalized
length exceeds 800, stopword removal deletes the `的` between two spaces, and
the output contains a run of two spaces. -/
theorem c1_counterexample :
    ¬ (∀ text : List Char,
        (∀ c ∈ preprocess_text text, isWordChar c = true ∨ isSpaceChar c = true) ∧
        noWsRun (preprocess_text text) = true ∧
        trimmedB (preprocess_text text) = true) := by
  intro h
  exact absurd
    (h ('a' :: ' ' :: '的' :: ' ' :: 'b' :: List.replicate 800 'c')).2.1
    (by decide)

/-- C7: the stopword characters are removed if and only if the text length
after punctuation removal, whitespace collapsing and trimming exceeds 800:
below the threshold the output is exactly the collapsed text (stopwords
retained), above it no stopword character survives; an input consisting
entirely of stopword characters and longer than 800 characters normalizes to
the empty string; and normalizing the empty string yields the empty string. -/
theorem c7_stopword_threshold (t : List Char) :
    ((squeezeWs (stripPunct t)).length ≤ 800 →
      preprocess_text t = squeezeWs (stripPunct t)) ∧
    ((squeezeWs (stripPunct t)).length > 800 →
      ∀ c ∈ preprocess_text t, isStopword c = false) ∧
    ((∀ c ∈ t, isStopword c = true) → t.length > 800 → preprocess_text t = []) ∧
    preprocess_text [] = [] := by
  refine ⟨?_, ?_, ?_, by decide⟩
  · intro hlen
    rw [preprocess_eq, if_neg (by omega)]
  · intro hlen c hc
    rw [preprocess_eq, if_pos hlen] at hc
    have := (List.mem_filter.mp hc).2
    simpa using this
  · intro hst hlen
    have hnsp : ∀ c ∈ t, isSpaceChar c = false := fun c hc =>
      stopword_not_space c (stopword_mem c (hst c hc))
    have hsp : stripPunct t = t := by
      rw [stripPunct, List.filter_eq_self]
      intro a ha
      simp [stopword_word a (stopword_mem a (hst a ha))]
    have hcw : collapseWs t = t :=
      collapseWs_fixpoint t
        (fun c hc hs => absurd hs (by simp [hnsp c hc]))
        (noWsRun_of_no_space t hnsp)
    have hps : pyStrip t = t := pyStrip_eq_self t (trimmedB_of_no_space t hnsp)
    have hsq : squeezeWs (stripPunct t) = t := by
      rw [hsp]; unfold squeezeWs; rw [hcw, hps]
    rw [preprocess_eq, hsq, if_pos hlen, List.filter_eq_nil_iff]
    intro a ha
    simp [hst a ha]

/-- C7 witness: the 801-character all-stopword input normalizes to the empty
string, and on a short input (`"ab"`) the stopword step is skipped. -/
theorem c7_witness :
    (∀ c ∈ List.replicate 801 '的', isStopword c = true) ∧
    (List.replicate 801 '的').length > 800 ∧
    preprocess_text (List.replicate 801 '的') = [] ∧
    (squeezeWs (stripPunct ['a', 'b'])).length ≤ 800 ∧
    preprocess_text ['a', 'b'] = squeezeWs (stripPunct ['a', 'b']) := by
  have hst : ∀ c ∈ List.replicate 801 '的', isStopword c = true := by
    intro c hc
    rw [List.eq_of_mem_replicate hc]
    decide
  have hlen : (List.replicate 801 '的').length > 800 := by
    rw [List.length_replicate]
    omega
  have hsmall : (squeezeWs (stripPunct ['a', 'b'])).length ≤ 800 := by decide
  exact ⟨hst, hlen, (c7_stopword_threshold _).2.2.1 hst hlen, hsmall,
    (c7_stopword_threshold _).1 hsmall⟩

/-- C9 (amended): the normalizer is a no-op on already-normalized text — text
whose characters are word characters or single ASCII spaces, with no
double-space run, no leading or trailing whitespace, and (when longer than 800
characters) no remaining stopword characters. -/
theorem c9_normalize_fixed_point (t : List Char)
    (h1 : ∀ c ∈ t, isWordChar c = true ∨ c = ' ')
    (h2 : noWsRun t = true)
    (h3 : trimmedB t = true)
    (h4 : t.length > 800 → ∀ c ∈ t, isStopword c = false) :
    preprocess_text t = t := by
  have hsp : stripPunct t = t := by
    rw [stripPunct, List.filter_eq_self]
    intro a ha
    rcases h1 a ha with h | h
    · simp [h]
    · simp [h, isSpaceChar_space]
  have hcw : collapseWs t = t := by
    apply collapseWs_fixpoint t _ h2
    intro c hc hs
    rcases h1 c hc with h | h
    · exact absurd hs (by simp [isWordChar_not_space c h])
    · exact h
  have hps : pyStrip t = t := pyStrip_eq_self t h3
  have hsq : squeezeWs (stripPunct t) = t := by
    rw [hsp]; unfold squeezeWs; rw [hcw, hps]
  rw [preprocess_eq, hsq]
  by_cases hlen : t.length > 800
  · rw [if_pos hlen, List.filter_eq_self]
    intro a ha
    simp [h4 hlen a ha]
  · rw [if_neg hlen]

/-- C9 witness: the normalized text `"ab c"` is a fixed point of the
normalizer. -/
theorem c9_witness :
    (∀ c ∈ ['a', 'b', ' ', 'c'], isWordChar c = true ∨ c = ' ') ∧
    noWsRun ['a', 'b', ' ', 'c'] = true ∧
    trimmedB ['a', 'b', ' ', 'c'] = true ∧
    preprocess_text ['a', 'b', ' ', 'c'] = ['a', 'b', ' ', 'c'] := by
  refine ⟨by decide, by decide, by decide,
    c9_normalize_fixed_point _ (by decide) (by decide) (by decide)
      (fun hl => absurd hl (by decide))⟩

set_option maxRecDepth 100000 in
/-- C9 counterexample: `normalize` is not idempotent on every input.  On
`"a 了 b" ++ "d" * 800` the first pass removes the stopword `了` and leaves a
double space, which the second pass collapses. -/
theorem c9_counterexample :
    ¬ (∀ t : List Char,
        preprocess_text (preprocess_text t) = preprocess_text t) := by
  intro h
  exact absurd (h ('a' :: ' ' :: '了' :: ' ' :: 'b' :: List.replicate 800 'd'))
    (by decide)


/-! ### The tokenizer -/

theorem trimmedB_head (l : List Char) (c : Char) (h : trimmedB l = true)
    (hh : l.head? = some c) : isSpaceChar c = false := by
  unfold trimmedB at h
  simp only [hh] at h
  have := (Bool.and_eq_true _ _ |>.mp h).1
  simpa using this

theorem mem_lcutAll (dict : List (List Char)) (text : List Char)
    (w : List Char) (h : w ∈ lcutAll dict text) : w ∈ dict := by
  unfold lcutAll at h
  have := (List.mem_filter.mp h).2
  exact List.elem_iff.mp this

theorem lcutAll_nil (dict : List (List Char)) : lcutAll dict [] = [] := rfl

theorem segment_mem_imp (lcut : List Char → List (List Char)) (t : List Char)
    (tok : List Char) (h : tok ∈ segment_text lcut t) :
    tok ∈ lcut t ∧ pyStrip tok ≠ [] := by
  unfold segment_text at h
  have h2 := List.mem_filter.mp h
  refine ⟨h2.1, ?_⟩
  have := h2.2
  simp only [Bool.not_eq_true'] at this
  exact fun he => by simp [he] at this

/-- C8: the tokenizer yields the empty sequence on the empty string; with the
spec-modelled exhaustive segmenter over a lexicon of non-empty whitespace-free
words, every produced token is non-empty and contains no whitespace; and —
independently of any segmenter — the repository's own filter guarantees every
kept token contains at least one non-whitespace character (never empty or
whitespace-only). -/
theorem c8_segment_tokens (dict : List (List Char)) (text : List Char)
    (hdict : ∀ w ∈ dict, w ≠ [] ∧ ∀ c ∈ w, isSpaceChar c = false) :
    segment_text (lcutAll dict) [] = [] ∧
    (∀ tok ∈ segment_text (lcutAll dict) text,
      tok ≠ [] ∧ ∀ c ∈ tok, isSpaceChar c = false) ∧
    (∀ (lcut : List Char → List (List Char)) (t : List Char),
      ∀ tok ∈ segment_text lcut t, ∃ c ∈ tok, isSpaceChar c = false) := by
  refine ⟨rfl, ?_, ?_⟩
  · intro tok htok
    exact hdict tok (mem_lcutAll dict text tok (segment_mem_imp _ _ _ htok).1)
  · intro lcut t tok htok
    have hne := (segment_mem_imp _ _ _ htok).2
    cases hP : pyStrip tok with
    | nil => exact absurd hP hne
    | cons c cs =>
      refine ⟨c, mem_pyStrip tok c (by simp [hP]), ?_⟩
      exact trimmedB_head _ c (hP ▸ trimmedB_pyStrip tok) (by simp [hP])

/-- C8 witness: on the text `"ab"` with lexicon `{a, ab}` the theorem applies
and every token is non-empty and whitespace-free. -/
theorem c8_witness :
    (∀ w ∈ [['a'], ['a', 'b']], w ≠ [] ∧ ∀ c ∈ w, isSpaceChar c = false) ∧
    segment_text (lcutAll [['a'], ['a', 'b']]) [] = [] ∧
    (∀ tok ∈ segment_text (lcutAll [['a'], ['a', 'b']]) ['a', 'b'],
      tok ≠ [] ∧ ∀ c ∈ tok, isSpaceChar c = false) := by
  have hd : ∀ w ∈ [['a'], ['a', 'b']], w ≠ [] ∧ ∀ c ∈ w, isSpaceChar c = false := by
    decide
  have h := c8_segment_tokens [['a'], ['a', 'b']] ['a', 'b'] hd
  exact ⟨hd, h.1, h.2.1⟩

/-! ### Levenshtein distance lemmas -/

theorem levenshtein_nil_left (b : List Char) : levenshtein [] b = b.length := by
  simp [levenshtein]

theorem levenshtein_nil_right (a : List Char) : levenshtein a [] = a.length := by
  cases a <;> simp [levenshtein]

theorem levenshtein_cons_cons (x y : Char) (xs ys : List Char) :
    levenshtein (x :: xs) (y :: ys) =
      if x = y then levenshtein xs ys
      else 1 + min (levenshtein xs ys)
        (min (levenshtein (x :: xs) ys) (levenshtein xs (y :: ys))) := by
  simp [levenshtein]

theorem levenshtein_self (a : List Char) : levenshtein a a = 0 := by
  induction a with
  | nil => simp [levenshtein]
  | cons x xs ih => rw [levenshtein_cons_cons, if_pos rfl]; exact ih

theorem levenshtein_le_max_aux (n : Nat) :
    ∀ a b : List Char, a.length + b.length ≤ n →
      levenshtein a b ≤ max a.length b.length := by
  induction n with
  | zero =>
    intro a b h
    cases a with
    | nil => rw [levenshtein_nil_left]; exact Nat.le_max_right _ _
    | cons x xs =>
      cases b with
      | nil => rw [levenshtein_nil_right]; exact Nat.le_max_left _ _
      | cons y ys => simp at h
  | succ n ih =>
    intro a b h
    cases a with
    | nil => rw [levenshtein_nil_left]; exact Nat.le_max_right _ _
    | cons x xs =>
      cases b with
      | nil => rw [levenshtein_nil_right]; exact Nat.le_max_left _ _
      | cons y ys =>
        simp only [List.length_cons] at h ⊢
        rw [levenshtein_cons_cons]
        by_cases hxy : x = y
        · rw [if_pos hxy]
          have := ih xs ys (by omega)
          omega
        · rw [if_neg hxy]
          have h1 := ih xs ys (by omega)
          omega

theorem levenshtein_le_max (a b : List Char) :
    levenshtein a b ≤ max a.length b.length :=
  levenshtein_le_max_aux (a.length + b.length) a b le_rfl

theorem levenshtein_symm_aux (n : Nat) :
    ∀ a b : List Char, a.length + b.length ≤ n →
      levenshtein a b = levenshtein b a := by
  induction n with
  | zero =>
    intro a b h
    cases a with
    | nil => cases b with
      | nil => rfl
      | cons y ys => simp at h
    | cons x xs => simp at h
  | succ n ih =>
    intro a b h
    cases a with
    | nil => rw [levenshtein_nil_left, levenshtein_nil_right]
    | cons x xs =>
      cases b with
      | nil => rw [levenshtein_nil_left, levenshtein_nil_right]
      | cons y ys =>
        simp only [List.length_cons] at h
        rw [levenshtein_cons_cons, levenshtein_cons_cons]
        by_cases hxy : x = y
        · rw [if_pos hxy, if_pos (hxy ▸ rfl), ih xs ys (by omega)]
        · rw [if_neg hxy, if_neg (fun he => hxy he.symm)]
          rw [ih xs ys (by omega), ih (x :: xs) ys (by simp; omega),
            ih xs (y :: ys) (by simp; omega)]
          omega

theorem levenshtein_symm (a b : List Char) :
    levenshtein a b = levenshtein b a :=
  levenshtein_symm_aux (a.length + b.length) a b le_rfl

/-- C4: `edit_similarity` is `1` when both strings are empty, otherwise it is
`1 - d/maxLen`; it always lies in `[0, 1]`; it is `1` on every pair of equal
strings; and it is `0` against a non-empty string when the other is empty. -/
theorem c4_edit_similarity (a b : List Char) :
    (a = [] → b = [] → calculate_edit_distance_similarity a b = 1) ∧
    (max a.length b.length ≠ 0 →
      calculate_edit_distance_similarity a b =
        1 - (levenshtein a b : ℚ) / (max a.length b.length : ℚ)) ∧
    0 ≤ calculate_edit_distance_similarity a b ∧
    calculate_edit_distance_similarity a b ≤ 1 ∧
    calculate_edit_distance_similarity a a = 1 ∧
    (a = [] → b ≠ [] → calculate_edit_distance_similarity a b = 0) := by
  have hbounds : ∀ u v : List Char,
      0 ≤ calculate_edit_distance_similarity u v ∧
      calculate_edit_distance_similarity u v ≤ 1 := by
    intro u v
    unfold calculate_edit_distance_similarity
    by_cases hm : max u.length v.length = 0
    · rw [if_pos hm]
      norm_num
    · rw [if_neg hm]
      have hmpos : (0 : ℚ) < (max u.length v.length : ℚ) := by
        exact_mod_cast Nat.pos_of_ne_zero hm
      have hd : (levenshtein u v : ℚ) ≤ (max u.length v.length : ℚ) := by
        exact_mod_cast levenshtein_le_max u v
      have hq1 : (levenshtein u v : ℚ) / (max u.length v.length : ℚ) ≤ 1 :=
        (div_le_one hmpos).mpr hd
      have hq0 : 0 ≤ (levenshtein u v : ℚ) / (max u.length v.length : ℚ) :=
        div_nonneg (by positivity) (le_of_lt hmpos)
      push_cast
      constructor <;> linarith
  refine ⟨?_, ?_, (hbounds a b).1, (hbounds a b).2, ?_, ?_⟩
  · intro ha hb
    subst ha hb
    rfl
  · intro hm
    unfold calculate_edit_distance_similarity
    rw [if_neg hm]
    push_cast
    ring
  · unfold calculate_edit_distance_similarity
    by_cases hm : max a.length a.length = 0
    · rw [if_pos hm]
    · rw [if_neg hm, levenshtein_self]
      simp
  · intro ha hb
    subst ha
    unfold calculate_edit_distance_similarity
    have hm : max ([] : List Char).length b.length ≠ 0 := by
      simpa using fun he => hb (List.length_eq_zero.mp he)
    rw [if_neg hm, levenshtein_nil_left]
    have hbq : (b.length : ℚ) ≠ 0 := by
      simpa using fun he => hb (List.length_eq_zero.mp he)
    simp only [List.length_nil, Nat.zero_max]
    rw [div_self hbq]
    norm_num

/-- C4 witness: concrete evaluations — both-empty gives 1, equal strings give
1, the bounds hold on `("a", "bc")`, and empty-vs-non-empty gives 0. -/
theorem c4_witness :
    calculate_edit_distance_similarity [] [] = 1 ∧
    calculate_edit_distance_similarity ['x'] ['x'] = 1 ∧
    (0 ≤ calculate_edit_distance_similarity ['a'] ['b', 'c'] ∧
      calculate_edit_distance_similarity ['a'] ['b', 'c'] ≤ 1) ∧
    calculate_edit_distance_similarity [] ['x'] = 0 := by
  refine ⟨(c4_edit_similarity [] []).1 rfl rfl,
    (c4_edit_similarity ['x'] ['x']).2.2.2.2.1,
    ⟨(c4_edit_similarity ['a'] ['b', 'c']).2.2.1,
      (c4_edit_similarity ['a'] ['b', 'c']).2.2.2.1⟩,
    (c4_edit_similarity [] ['x']).2.2.2.2.2 rfl (by simp)⟩


/-! ### Vectorizer lemmas -/

theorem listIndex_lt_length (w : List Char) (l : List (List Char))
    (h : w ∈ l) : listIndex w l < l.length := by
  induction l with
  | nil => simp at h
  | cons x xs ih =>
    rw [listIndex]
    by_cases hx : x = w
    · rw [if_pos hx]
      simp
    · rw [if_neg hx]
      have hw : w ∈ xs := by
        rcases List.mem_cons.mp h with h' | h'
        · exact absurd h'.symm hx
        · exact h'
      have := ih hw
      simp only [List.length_cons]
      omega

theorem getD_listIndex (w : List Char) (l : List (List Char)) (h : w ∈ l) :
    l.getD (listIndex w l) [] = w := by
  induction l with
  | nil => simp at h
  | cons x xs ih =>
    rw [listIndex]
    by_cases hx : x = w
    · rw [if_pos hx]
      simpa using hx
    · rw [if_neg hx]
      have hw : w ∈ xs := by
        rcases List.mem_cons.mp h with h' | h'
        · exact absurd h'.symm hx
        · exact h'
      have : 1 + listIndex w xs = listIndex w xs + 1 := Nat.add_comm _ _
      rw [this]
      simpa using ih hw

theorem listIndex_getD (l : List (List Char)) (hn : l.Nodup) :
    ∀ i, i < l.length → listIndex (l.getD i []) l = i := by
  induction l with
  | nil => intro i hi; simp at hi
  | cons x xs ih =>
    intro i hi
    cases i with
    | zero =>
      simp [listIndex]
    | succ j =>
      have hj : j < xs.length := by simpa using hi
      have hmem : xs.getD j [] ∈ xs := by
        rw [List.getD_eq_getElem xs [] hj]
        exact List.getElem_mem hj
      have hne : x ≠ xs.getD j [] := by
        intro he
        exact (List.nodup_cons.mp hn).1 (he ▸ hmem)
      have hgd : (x :: xs).getD (j + 1) [] = xs.getD j [] := by
        simp [List.getD]
      rw [hgd, listIndex, if_neg hne, ih (List.nodup_cons.mp hn).2 j hj]
      omega

theorem mem_dedupFirst_aux (n : Nat) :
    ∀ l : List (List Char), l.length ≤ n →
      ∀ y, y ∈ dedupFirst l ↔ y ∈ l := by
  induction n with
  | zero =>
    intro l h y
    have : l = [] := List.length_eq_zero.mp (Nat.le_zero.mp h)
    subst this
    simp [dedupFirst]
  | succ n ih =>
    intro l h y
    cases l with
    | nil => simp [dedupFirst]
    | cons x xs =>
      have hlen : (xs.filter (fun z => z ≠ x)).length ≤ n :=
        le_trans (List.length_filter_le _ _) (by simpa using h)
      by_cases hyx : y = x
      · subst hyx
        simp [dedupFirst]
      · simp only [dedupFirst, List.mem_cons]
        rw [ih _ hlen y]
        simp [List.mem_filter, hyx]

theorem mem_dedupFirst (l : List (List Char)) (y : List Char) :
    y ∈ dedupFirst l ↔ y ∈ l :=
  mem_dedupFirst_aux l.length l le_rfl y

theorem t2v_fold_length (vocab : List (List Char)) (f : List Char → Nat)
    (ws : List (List Char)) :
    ∀ vec : List Nat,
      (ws.foldl (fun v w =>
        if w ∈ vocab then v.set (listIndex w vocab) (f w) else v) vec).length =
        vec.length := by
  induction ws with
  | nil => intro vec; rfl
  | cons w ws ih =>
    intro vec
    rw [List.foldl_cons, ih]
    by_cases h : w ∈ vocab
    · simp [h, List.length_set]
    · simp [h]

theorem t2v_fold_getD (vocab : List (List Char)) (hn : vocab.Nodup)
    (f : List Char → Nat) (ws : List (List Char)) :
    ∀ vec : List Nat, vec.length = vocab.length →
      ∀ i, i < vocab.length →
        (ws.foldl (fun v w =>
          if w ∈ vocab then v.set (listIndex w vocab) (f w) else v) vec).getD i 0 =
          if vocab.getD i [] ∈ ws then f (vocab.getD i []) else vec.getD i 0 := by
  induction ws with
  | nil =>
    intro vec hv i hi
    simp
  | cons w ws ih =>
    intro vec hv i hi
    rw [List.foldl_cons]
    have hstep : (if w ∈ vocab then vec.set (listIndex w vocab) (f w) else vec).length =
        vocab.length := by
      by_cases h : w ∈ vocab <;> simp [h, List.length_set, hv]
    rw [ih _ hstep i hi]
    by_cases htw : vocab.getD i [] ∈ ws
    · rw [if_pos htw, if_pos (List.mem_cons_of_mem w htw)]
    · rw [if_neg htw]
      by_cases hwv : w ∈ vocab
      · rw [if_pos hwv]
        by_cases hidx : listIndex w vocab = i
        · subst hidx
          have hti : vocab.getD (listIndex w vocab) [] = w :=
            getD_listIndex w vocab hwv
          rw [hti, if_pos (List.mem_cons_self w ws)]
          rw [List.getD_eq_getElem?_getD, List.getElem?_set_eq_of_lt _
            (by rw [hv]; exact listIndex_lt_length w vocab hwv)]
          rfl
        · have htnw : vocab.getD i [] ≠ w := by
            intro he
            exact hidx (by rw [← listIndex_getD vocab hn i hi, he])
          rw [if_neg (by
            intro hmem
            rcases List.mem_cons.mp hmem with h' | h'
            · exact htnw h'
            · exact htw h')]
          rw [List.getD_eq_getElem?_getD, List.getElem?_set_ne hidx,
            ← List.getD_eq_getElem?_getD]
      · rw [if_neg hwv]
        have htnw : vocab.getD i [] ≠ w := by
          intro he
          apply hwv
          rw [← he, List.getD_eq_getElem vocab [] hi]
          exact List.getElem_mem hi
        rw [if_neg (by
          intro hmem
          rcases List.mem_cons.mp hmem with h' | h'
          · exact htnw h'
          · exact htw h')]

theorem text_to_vector_foldl (words vocab : List (List Char)) :
    text_to_vector words vocab =
      (dedupFirst words).foldl (fun vec w =>
        if w ∈ vocab then vec.set (listIndex w vocab) (words.count w) else vec)
        (List.replicate vocab.length 0) := by
  unfold text_to_vector calculate_term_frequency
  rw [List.foldl_map]

theorem text_to_vector_length (words vocab : List (List Char)) :
    (text_to_vector words vocab).length = vocab.length := by
  rw [text_to_vector_foldl, t2v_fold_length, List.length_replicate]

/-- Characterization of `text_to_vector` over a duplicate-free vocabulary:
it is the list of per-vocabulary-token occurrence counts. -/
theorem text_to_vector_eq_map (words vocab : List (List Char))
    (hn : vocab.Nodup) :
    text_to_vector words vocab = vocab.map fun t => words.count t := by
  apply List.ext_getElem
  · rw [text_to_vector_length, List.length_map]
  · intro i h1 h2
    have hi : i < vocab.length := by
      rwa [text_to_vector_length] at h1
    have hrep : (List.replicate vocab.length (0 : Nat)).length = vocab.length :=
      List.length_replicate _ _
    have hfold := t2v_fold_getD vocab hn (fun w => words.count w)
      (dedupFirst words) (List.replicate vocab.length 0) hrep i hi
    have hgd : (text_to_vector words vocab).getD i 0 =
        (text_to_vector words vocab)[i] :=
      List.getD_eq_getElem _ _ h1
    rw [← hgd, text_to_vector_foldl, hfold]
    rw [List.getElem_map]
    by_cases hmem : vocab.getD i [] ∈ dedupFirst words
    · rw [if_pos hmem, List.getD_eq_getElem vocab [] hi]
    · rw [if_neg hmem]
      have hnotin : vocab[i] ∉ words := by
        rw [← List.getD_eq_getElem vocab [] hi]
        intro hin
        exact hmem ((mem_dedupFirst words _).mpr hin)
      rw [List.count_eq_zero.mpr hnotin]
      rw [List.getD_eq_getElem _ _ (by rwa [List.length_replicate])]
      simp

/-- C6: over a duplicate-free vocabulary, `text_to_vector` is exactly the
per-vocabulary-token occurrence count: its length equals the vocabulary size
and its `i`-th entry counts the occurrences in `words` of the `i`-th
vocabulary token; out-of-vocabulary tokens of `words` are silently ignored
(the function is total). -/
theorem c6_text_to_vector_counts (words vocab : List (List Char))
    (hn : vocab.Nodup) :
    text_to_vector words vocab = vocab.map (fun t => words.count t) ∧
    (text_to_vector words vocab).length = vocab.length := by
  have hmain := text_to_vector_eq_map words vocab hn
  exact ⟨hmain, by rw [hmain, List.length_map]⟩

/-- C6 witness: a concrete token sequence containing an out-of-vocabulary
token (`"zz"`) vectorizes, without failing, to the per-token counts over the
vocabulary. -/
theorem c6_witness :
    ([['a'], ['b'], ['c']] : List (List Char)).Nodup ∧
    text_to_vector [['a'], ['b'], ['a'], ['z', 'z']] [['a'], ['b'], ['c']] =
      [2, 1, 0] := by
  have hn : ([['a'], ['b'], ['c']] : List (List Char)).Nodup := by decide
  refine ⟨hn, ?_⟩
  rw [(c6_text_to_vector_counts [['a'], ['b'], ['a'], ['z', 'z']]
    [['a'], ['b'], ['c']] hn).1]
  decide


/-! ### Cosine-similarity lemmas -/

theorem sumSq_nonneg (v : List ℝ) : 0 ≤ (v.map fun x => x ^ 2).sum := by
  apply List.sum_nonneg
  intro x hx
  obtain ⟨y, _, rfl⟩ := List.mem_map.mp hx
  positivity

theorem dot_self_eq_sumSq (v : List ℝ) :
    (List.zipWith (fun x y => x * y) v v).sum = (v.map fun x => x ^ 2).sum := by
  induction v with
  | nil => rfl
  | cons x xs ih =>
    simp only [List.zipWith_cons_cons, List.map_cons, List.sum_cons, ih, sq]

theorem sumSq_pos (v : List ℝ) (x : ℝ) (hx : x ∈ v) (hxne : x ≠ 0) :
    0 < (v.map fun x => x ^ 2).sum := by
  have h1 : (0 : ℝ) < x ^ 2 := by positivity
  have h2 : x ^ 2 ≤ (v.map fun x => x ^ 2).sum := by
    apply List.single_le_sum
    · intro y hy
      obtain ⟨z, _, rfl⟩ := List.mem_map.mp hy
      positivity
    · exact List.mem_map_of_mem _ hx
  linarith

theorem dot_nonneg (v : List ℝ) :
    ∀ w : List ℝ, (∀ x ∈ v, 0 ≤ x) → (∀ x ∈ w, 0 ≤ x) →
      0 ≤ (List.zipWith (fun x y => x * y) v w).sum := by
  induction v with
  | nil => intro w _ _; simp
  | cons x xs ih =>
    intro w hv hw
    cases w with
    | nil => simp
    | cons y ys =>
      simp only [List.zipWith_cons_cons, List.sum_cons]
      have h1 : 0 ≤ x * y :=
        mul_nonneg (hv x (by simp)) (hw y (by simp))
      have h2 := ih ys (fun z hz => hv z (by simp [hz]))
        (fun z hz => hw z (by simp [hz]))
      linarith

theorem list_inner_sq_le (v : List ℝ) :
    ∀ w : List ℝ,
      ((List.zipWith (fun x y => x * y) v w).sum) ^ 2 ≤
        (v.map fun x => x ^ 2).sum * (w.map fun x => x ^ 2).sum := by
  induction v with
  | nil => intro w; simp
  | cons x xs ih =>
    intro w
    cases w with
    | nil => simp [sumSq_nonneg xs]
    | cons y ys =>
      simp only [List.zipWith_cons_cons, List.map_cons, List.sum_cons]
      have h := ih ys
      have ha := sumSq_nonneg xs
      have hb := sumSq_nonneg ys
      set d := (List.zipWith (fun x y => x * y) xs ys).sum with hdd
      set A := (xs.map fun x => x ^ 2).sum with hA
      set B := (ys.map fun x => x ^ 2).sum with hB
      by_cases hB0 : B = 0
      · rw [hB0, mul_zero] at h
        have hd0 : d = 0 := by nlinarith [sq_nonneg d]
        rw [hB0, hd0]
        nlinarith [mul_nonneg ha (sq_nonneg y)]
      · have hBpos : 0 < B := lt_of_le_of_ne hb (Ne.symm hB0)
        have hprod : 0 ≤ (y ^ 2 + B) * (A * B - d ^ 2) :=
          mul_nonneg (by positivity) (by linarith)
        nlinarith [sq_nonneg (x * B - y * d), hprod, hBpos]

/-- C3: cosine similarity of every non-zero vector with itself is exactly `1`
(over exact real arithmetic); orthogonal unit axes have similarity `0`; and a
zero vector yields `0` against any vector. -/
theorem c3_cosine_values (v : List ℝ) :
    ((∃ x ∈ v, x ≠ 0) → calculate_cosine_similarity v v = 1) ∧
    calculate_cosine_similarity [1, 0] [0, 1] = 0 ∧
    calculate_cosine_similarity [0, 0] [1, 2] = 0 := by
  refine ⟨?_, ?_, ?_⟩
  · rintro ⟨x, hx, hxne⟩
    unfold calculate_cosine_similarity
    have hpos : 0 < (v.map fun x => x ^ 2).sum := sumSq_pos v x hx hxne
    have hsq : Real.sqrt ((v.map fun x => x ^ 2).sum) ≠ 0 :=
      (Real.sqrt_pos.mpr hpos).ne'
    rw [if_neg (by push_neg; exact ⟨hsq, hsq⟩)]
    rw [dot_self_eq_sumSq, Real.mul_self_sqrt (le_of_lt hpos)]
    exact div_self (ne_of_gt hpos)
  · unfold calculate_cosine_similarity
    have h1 : (([1, 0] : List ℝ).map fun x => x ^ 2).sum = 1 := by norm_num
    have h2 : (([0, 1] : List ℝ).map fun x => x ^ 2).sum = 1 := by norm_num
    have hd : (List.zipWith (fun x y => x * y) ([1, 0] : List ℝ) [0, 1]).sum = 0 := by
      norm_num
    rw [h1, h2, hd, Real.sqrt_one]
    norm_num
  · unfold calculate_cosine_similarity
    have h1 : (([0, 0] : List ℝ).map fun x => x ^ 2).sum = 0 := by norm_num
    rw [h1, Real.sqrt_zero]
    rw [if_pos (Or.inl rfl)]

/-- C3 witness: the vector `[1, 2, 3]` is non-zero and its cosine similarity
with itself is exactly `1`. -/
theorem c3_witness :
    (∃ x ∈ ([1, 2, 3] : List ℝ), x ≠ 0) ∧
    calculate_cosine_similarity [1, 2, 3] [1, 2, 3] = 1 := by
  have hx : ∃ x ∈ ([1, 2, 3] : List ℝ), x ≠ 0 := ⟨1, by simp, one_ne_zero⟩
  exact ⟨hx, (c3_cosine_values [1, 2, 3]).1 hx⟩

/-- C5: for equal-length vectors, cosine similarity is exactly `0` when either
magnitude is zero (no error is possible — the function is total), otherwise it
is the normalized dot product; and for vectors with non-negative entries the
result always lies in `[0, 1]`. -/
theorem c5_cosine_bounds (v w : List ℝ) (hlen : v.length = w.length) :
    (Real.sqrt ((v.map fun x => x ^ 2).sum) = 0 ∨
        Real.sqrt ((w.map fun x => x ^ 2).sum) = 0 →
      calculate_cosine_similarity v w = 0) ∧
    (¬(Real.sqrt ((v.map fun x => x ^ 2).sum) = 0 ∨
        Real.sqrt ((w.map fun x => x ^ 2).sum) = 0) →
      calculate_cosine_similarity v w =
        (List.zipWith (fun x y => x * y) v w).sum /
          (Real.sqrt ((v.map fun x => x ^ 2).sum) *
            Real.sqrt ((w.map fun x => x ^ 2).sum))) ∧
    ((∀ x ∈ v, 0 ≤ x) → (∀ x ∈ w, 0 ≤ x) →
      0 ≤ calculate_cosine_similarity v w ∧
      calculate_cosine_similarity v w ≤ 1) := by
  refine ⟨?_, ?_, ?_⟩
  · intro hz
    unfold calculate_cosine_similarity
    rw [if_pos hz]
  · intro hz
    unfold calculate_cosine_similarity
    rw [if_neg hz]
  · intro hv hw
    unfold calculate_cosine_similarity
    by_cases hz : Real.sqrt ((v.map fun x => x ^ 2).sum) = 0 ∨
        Real.sqrt ((w.map fun x => x ^ 2).sum) = 0
    · rw [if_pos hz]
      norm_num
    · rw [if_neg hz]
      push_neg at hz
      have hA := sumSq_nonneg v
      have hB := sumSq_nonneg w
      have hsA : 0 < Real.sqrt ((v.map fun x => x ^ 2).sum) :=
        lt_of_le_of_ne (Real.sqrt_nonneg _) (Ne.symm hz.1)
      have hsB : 0 < Real.sqrt ((w.map fun x => x ^ 2).sum) :=
        lt_of_le_of_ne (Real.sqrt_nonneg _) (Ne.symm hz.2)
      have hdenom : 0 < Real.sqrt ((v.map fun x => x ^ 2).sum) *
          Real.sqrt ((w.map fun x => x ^ 2).sum) := mul_pos hsA hsB
      have hd0 : 0 ≤ (List.zipWith (fun x y => x * y) v w).sum :=
        dot_nonneg v w hv hw
      constructor
      · exact div_nonneg hd0 (le_of_lt hdenom)
      · rw [div_le_one hdenom]
        rw [← Real.sqrt_mul hA]
        exact Real.le_sqrt_of_sq_le (list_inner_sq_le v w)

/-- C5 witness: on `([1,0], [0,0])` the zero-magnitude branch returns exactly
`0`, and the `[0,1]` bounds hold. -/
theorem c5_witness :
    ([1, 0] : List ℝ).length = ([0, 0] : List ℝ).length ∧
    Real.sqrt ((([0, 0] : List ℝ).map fun x => x ^ 2).sum) = 0 ∧
    calculate_cosine_similarity [1, 0] [0, 0] = 0 ∧
    (∀ x ∈ ([1, 0] : List ℝ), 0 ≤ x) ∧
    (∀ x ∈ ([0, 0] : List ℝ), 0 ≤ x) ∧
    0 ≤ calculate_cosine_similarity [1, 0] [0, 0] ∧
    calculate_cosine_similarity [1, 0] [0, 0] ≤ 1 := by
  have hz : Real.sqrt ((([0, 0] : List ℝ).map fun x => x ^ 2).sum) = 0 := by
    have : (([0, 0] : List ℝ).map fun x => x ^ 2).sum = 0 := by norm_num
    rw [this, Real.sqrt_zero]
  have hv : ∀ x ∈ ([1, 0] : List ℝ), 0 ≤ x := by norm_num
  have hw : ∀ x ∈ ([0, 0] : List ℝ), 0 ≤ x := by norm_num
  have h := c5_cosine_bounds [1, 0] [0, 0] rfl
  exact ⟨rfl, hz, h.1 (Or.inr hz), hv, hw, (h.2.2 hv hw).1, (h.2.2 hv hw).2⟩


/-! ### The pipeline: empty-input error and symmetry -/

theorem calculate_similarity_error (lcut : List Char → List (List Char))
    (cw ew : ℝ) (t1 t2 : List Char)
    (hz : preprocess_text t1 = [] ∨ preprocess_text t2 = []) :
    calculate_similarity lcut cw ew t1 t2 = Except.error emptyInputMsg := by
  simp only [calculate_similarity]
  rw [if_pos hz]

/-- C2: when either document's normalized text is empty the pipeline fails
with the empty-input error — uniformly in the segmenter, i.e. before any
tokenization, vectorization or similarity work contributes to the result —
and never returns a numeric score; when both normalized texts are non-empty
it returns a numeric score and no such error is raised. -/
theorem c2_empty_input_error (lcut : List Char → List (List Char))
    (cw ew : ℝ) (t1 t2 : List Char) :
    (preprocess_text t1 = [] ∨ preprocess_text t2 = [] →
      calculate_similarity lcut cw ew t1 t2 = Except.error emptyInputMsg ∧
      (∀ lcut' : List Char → List (List Char),
        calculate_similarity lcut' cw ew t1 t2 = Except.error emptyInputMsg) ∧
      ∀ x : ℝ, calculate_similarity lcut cw ew t1 t2 ≠ Except.ok x) ∧
    (preprocess_text t1 ≠ [] ∧ preprocess_text t2 ≠ [] →
      ∃ score : ℝ, calculate_similarity lcut cw ew t1 t2 = Except.ok score) := by
  constructor
  · intro hz
    refine ⟨calculate_similarity_error lcut cw ew t1 t2 hz,
      fun lcut' => calculate_similarity_error lcut' cw ew t1 t2 hz, ?_⟩
    intro x hx
    rw [calculate_similarity_error lcut cw ew t1 t2 hz] at hx
    exact Except.noConfusion hx
  · rintro ⟨h1, h2⟩
    cases hok : calculate_similarity lcut cw ew t1 t2 with
    | error msg =>
      exfalso
      simp only [calculate_similarity] at hok
      rw [if_neg (by
        rintro (h | h)
        · exact h1 h
        · exact h2 h)] at hok
      exact Except.noConfusion hok
    | ok score => exact ⟨score, rfl⟩

/-- C2 witness: an empty first document errors out (with the constant segmenter
as external tokenizer), and two non-empty documents produce a score. -/
theorem c2_witness :
    preprocess_text [] = [] ∧
    calculate_similarity (fun _ => []) 0.7 0.3 [] ['a'] =
      Except.error emptyInputMsg ∧
    (preprocess_text ['a'] ≠ [] ∧ preprocess_text ['b'] ≠ []) ∧
    ∃ score : ℝ, calculate_similarity (fun _ => []) 0.7 0.3 ['a'] ['b'] =
      Except.ok score := by
  have hz : preprocess_text [] = [] ∨ preprocess_text ['a'] = [] := Or.inl rfl
  have hnz : preprocess_text ['a'] ≠ [] ∧ preprocess_text ['b'] ≠ [] := by
    constructor <;> decide
  exact ⟨rfl,
    ((c2_empty_input_error (fun _ => []) 0.7 0.3 [] ['a']).1 hz).1,
    hnz,
    (c2_empty_input_error (fun _ => []) 0.7 0.3 ['a'] ['b']).2 hnz⟩

theorem zipWith_mul_map (V : List (List Char)) (f g : List Char → ℝ) :
    List.zipWith (fun x y => x * y) (V.map f) (V.map g) =
      V.map fun t => f t * g t := by
  induction V with
  | nil => rfl
  | cons v vs ih => simp [ih]

theorem sumSq_map (V : List (List Char)) (f : List Char → ℝ) :
    ((V.map f).map fun x => x ^ 2).sum = (V.map fun t => f t ^ 2).sum := by
  rw [List.map_map]
  rfl

theorem cosine_symm_perm (V V' : List (List Char)) (hperm : V.Perm V')
    (f g : List Char → ℝ) :
    calculate_cosine_similarity (V.map f) (V.map g) =
      calculate_cosine_similarity (V'.map g) (V'.map f) := by
  unfold calculate_cosine_similarity
  rw [zipWith_mul_map, zipWith_mul_map, sumSq_map, sumSq_map, sumSq_map,
    sumSq_map]
  have hd : (V.map fun t => f t * g t).sum = (V'.map fun t => g t * f t).sum := by
    rw [List.Perm.sum_eq (hperm.map fun t => f t * g t)]
    have hfg : (fun t => g t * f t) = fun t => f t * g t := by
      funext t
      exact mul_comm _ _
    rw [hfg]
  have hA : (V.map fun t => f t ^ 2).sum = (V'.map fun t => f t ^ 2).sum :=
    List.Perm.sum_eq (hperm.map _)
  have hB : (V.map fun t => g t ^ 2).sum = (V'.map fun t => g t ^ 2).sum :=
    List.Perm.sum_eq (hperm.map _)
  rw [hd, hA, hB]
  by_cases hc : Real.sqrt ((V'.map fun t => f t ^ 2).sum) = 0 ∨
      Real.sqrt ((V'.map fun t => g t ^ 2).sum) = 0
  · rw [if_pos hc, if_pos (hc.elim Or.inr Or.inl)]
  · rw [if_neg hc, if_neg (fun h => hc (h.elim Or.inr Or.inl))]
    rw [mul_comm]

theorem edit_similarity_symm (a b : List Char) :
    calculate_edit_distance_similarity a b =
      calculate_edit_distance_similarity b a := by
  unfold calculate_edit_distance_similarity
  rw [levenshtein_symm a b, Nat.max_comm a.length b.length]

theorem vector_map_cast (words vocab : List (List Char)) (hn : vocab.Nodup) :
    (text_to_vector words vocab).map (fun n : ℕ => (n : ℝ)) =
      vocab.map fun t => ((words.count t : ℕ) : ℝ) := by
  rw [text_to_vector_eq_map words vocab hn, List.map_map]
  rfl

/-- C10: the combined similarity pipeline is symmetric in its two documents:
swapping the source and candidate texts yields the same result (also in the
error case), for every segmenter and every pair of weights.  Cosine similarity
is invariant under the joint vocabulary permutation and argument swap, and
edit-distance similarity is symmetric. -/
theorem c10_similarity_symmetric (lcut : List Char → List (List Char))
    (cw ew : ℝ) (t1 t2 : List Char) :
    calculate_similarity lcut cw ew t1 t2 =
      calculate_similarity lcut cw ew t2 t1 := by
  simp only [calculate_similarity]
  by_cases hz : preprocess_text t1 = [] ∨ preprocess_text t2 = []
  · rw [if_pos hz, if_pos (hz.elim Or.inr Or.inl)]
  · rw [if_neg hz, if_neg (fun h => hz (h.elim Or.inr Or.inl))]
    set w1 := segment_text lcut (preprocess_text t1) with hw1
    set w2 := segment_text lcut (preprocess_text t2) with hw2
    have hn12 : ((w1 ++ w2).dedup).Nodup := List.nodup_dedup _
    have hn21 : ((w2 ++ w1).dedup).Nodup := List.nodup_dedup _
    have hperm : ((w1 ++ w2).dedup).Perm ((w2 ++ w1).dedup) :=
      List.Perm.dedup List.perm_append_comm
    have hcos :
        calculate_cosine_similarity
          ((text_to_vector w1 ((w1 ++ w2).dedup)).map fun n : ℕ => (n : ℝ))
          ((text_to_vector w2 ((w1 ++ w2).dedup)).map fun n : ℕ => (n : ℝ)) =
        calculate_cosine_similarity
          ((text_to_vector w2 ((w2 ++ w1).dedup)).map fun n : ℕ => (n : ℝ))
          ((text_to_vector w1 ((w2 ++ w1).dedup)).map fun n : ℕ => (n : ℝ)) := by
      rw [vector_map_cast w1 _ hn12, vector_map_cast w2 _ hn12,
        vector_map_cast w2 _ hn21, vector_map_cast w1 _ hn21]
      exact cosine_symm_perm _ _ hperm _ _
    rw [hcos, edit_similarity_symm (preprocess_text t1) (preprocess_text t2)]

end PlagiarismChecker
